import Mathlib

/-!
Verification of the shell-like job grammar parser (`src/main.cpp`).

The parser is embedded shallowly: the C++ cursor class `StringToBeParsed`
becomes a structure holding the immutable source (`m_string`, as a list of
characters) and the mutable position (`m_currentPos`); each `while (true)`
loop of the C++ code becomes a fuel-indexed structurally recursive
function, where the wrapper passes `length + 1` units of fuel — strictly
more than the number of characters the loop can consume, so the fuel
branch is unreachable (proved below as fuel-irrelevance).
-/

set_option maxHeartbeats 1000000

namespace JobGrammar

/-- The cursor over the string being parsed (class `StringToBeParsed`,
src/main.cpp lines 15-49). -/
structure StringToBeParsed where
  m_string : List Char
  m_currentPos : Nat
  deriving DecidableEq

/-- `StringToBeParsed::CurrentChar` (lines 35-42): the character at the
current position, or a terminating newline when the text is empty or the
position is at its end. -/
def StringToBeParsed.CurrentChar (p : StringToBeParsed) : Char :=
  if p.m_string = [] ∨ p.m_currentPos = p.m_string.length then '\n'
  else p.m_string.getD p.m_currentPos '\n'

/-- `StringToBeParsed::NextChar` (lines 23-31): advance if not at the end,
then return the (new) current character.  The C++ method mutates the
object; here the updated cursor is returned alongside the character. -/
def StringToBeParsed.NextChar (p : StringToBeParsed) : Char × StringToBeParsed :=
  let p' := if p.m_currentPos < p.m_string.length
    then { p with m_currentPos := p.m_currentPos + 1 }
    else p
  (p'.CurrentChar, p')

/-- Token kinds of the job grammar (enum `Token`, lines 67-74). -/
inductive Token where
  | Pipe
  | Redirect
  | StrSeparator
  | Str
  | End
  deriving DecidableEq

/-- `ToToken` (lines 76-101): classify a single character. -/
def ToToken (c : Char) : Token :=
  if c = '|' then Token.Pipe
  else if c = '>' then Token.Redirect
  else if c = ' ' then Token.StrSeparator
  else if c = '\n' then Token.End
  else Token.Str

/-- `struct Command` (lines 51-54). -/
structure Command where
  args : List (List Char)
  deriving DecidableEq

/-- `struct Job` (lines 56-65).  `redirectFilename` is empty when no
redirect is specified. -/
structure Job where
  commands : List Command
  redirectFilename : List Char
  deriving DecidableEq

/-- The `while (true)` loop of `ParseStr` (lines 105-119), fuel-indexed. -/
def ParseStrGo : Nat → StringToBeParsed → List Char × StringToBeParsed
  | 0, p => ([], p)
  | fuel + 1, p =>
    let c := p.CurrentChar
    if ToToken c = Token.Str then
      let r := ParseStrGo fuel (p.NextChar).2
      (c :: r.1, r.2)
    else ([], p)

/-- `ParseStr` (lines 105-119): read the maximal run of `Str` characters. -/
def ParseStr (p : StringToBeParsed) : List Char × StringToBeParsed :=
  ParseStrGo (p.m_string.length + 1) p

/-- The separator-skipping loops (lines 129-132, 162-165, 196-199),
fuel-indexed. -/
def skipSeparatorsGo : Nat → StringToBeParsed → StringToBeParsed
  | 0, p => p
  | fuel + 1, p =>
    if ToToken p.CurrentChar = Token.StrSeparator then
      skipSeparatorsGo fuel (p.NextChar).2
    else p

/-- Skip consecutive space characters. -/
def skipSeparators (p : StringToBeParsed) : StringToBeParsed :=
  skipSeparatorsGo (p.m_string.length + 1) p

/-- The `while (true)` loop of `NextCmd` (lines 121-152), fuel-indexed:
skip separators, parse one word, keep it if non-empty, continue only when
a separator follows. -/
def NextCmdGo : Nat → StringToBeParsed → List (List Char) → Command × StringToBeParsed
  | 0, p, acc => (⟨acc⟩, p)
  | fuel + 1, p, acc =>
    let p1 := skipSeparators p
    let r := ParseStr p1
    let acc' := if r.1 = [] then acc else acc ++ [r.1]
    if ToToken r.2.CurrentChar = Token.StrSeparator then
      NextCmdGo fuel (r.2.NextChar).2 acc'
    else (⟨acc'⟩, r.2)

/-- `NextCmd` (lines 121-152). -/
def NextCmd (p : StringToBeParsed) : Command × StringToBeParsed :=
  NextCmdGo (p.m_string.length + 1) p []

/-- The command-pipeline loop of `ParseJob` (lines 159-187), fuel-indexed:
skip separators, parse one command, keep it if it has arguments, continue
only when a pipe follows. -/
def ParseJobGo : Nat → StringToBeParsed → List Command → List Command × StringToBeParsed
  | 0, p, acc => (acc, p)
  | fuel + 1, p, acc =>
    let p1 := skipSeparators p
    let r := NextCmd p1
    let acc' := if r.1.args = [] then acc else acc ++ [r.1]
    if ToToken r.2.CurrentChar = Token.Pipe then
      ParseJobGo fuel (r.2.NextChar).2 acc'
    else (acc', r.2)

/-- `ParseJob` (lines 154-205) with an explicit fuel bound for its
pipeline loop: after the loop, on a redirect token consume it, skip
separators and read the redirect filename. -/
def ParseJobFull (fuel : Nat) (p : StringToBeParsed) : Job × StringToBeParsed :=
  let r := ParseJobGo fuel p []
  if ToToken r.2.CurrentChar = Token.Redirect then
    let p3 := skipSeparators (r.2.NextChar).2
    let w := ParseStr p3
    ({ commands := r.1, redirectFilename := w.1 }, w.2)
  else ({ commands := r.1, redirectFilename := [] }, r.2)

/-- `ParseJob` (lines 154-205). -/
def ParseJob (p : StringToBeParsed) : Job × StringToBeParsed :=
  ParseJobFull (p.m_string.length + 1) p

/-- The constructor `StringToBeParsed(const char *s)` (line 18): a fresh
cursor at position 0. -/
def initCursor (s : String) : StringToBeParsed :=
  ⟨s.data, 0⟩

/-! ## Declarative characterization

A split-based description of what the parser computes, used as the
specification side of the refinement proofs below. -/

/-- The head of a suffix, as the cursor sees it: a newline at the end. -/
def headChar : List Char → Char
  | [] => '\n'
  | c :: _ => c

/-- Character classified as a word character. -/
def isStrTok (c : Char) : Bool := decide (ToToken c = Token.Str)

/-- Character classified as a separator. -/
def isSepTok (c : Char) : Bool := decide (ToToken c = Token.StrSeparator)

/-- Character classified as a pipe. -/
def isPipeTok (c : Char) : Bool := decide (ToToken c = Token.Pipe)

/-- Character consumed by `NextCmd`: separator or word character. -/
def isSepStrTok (c : Char) : Bool := isSepTok c || isStrTok c

/-- Character consumed by the pipeline loop of `ParseJob`: everything but
the redirect and terminator tokens. -/
def isBodyTok (c : Char) : Bool :=
  decide (ToToken c ≠ Token.Redirect ∧ ToToken c ≠ Token.End)

/-- Split a character list at every delimiter; the delimiters are dropped
and empty groups are kept, so the groups are the (possibly empty) maximal
delimiter-free runs. -/
def splitBy (q : Char → Bool) : List Char → List (List Char)
  | [] => [[]]
  | c :: cs =>
    match splitBy q cs with
    | [] => [[]]
    | g :: gs => if q c then [] :: g :: gs else (c :: g) :: gs

/-- The non-empty words of a pipe-free segment. -/
def wordsOfSeg (seg : List Char) : List (List Char) :=
  (splitBy isSepTok seg).filter (fun g => !g.isEmpty)

/-- The commands of a pipeline body: split at pipes, take each segment's
non-empty words, and drop commands with no words. -/
def cmdsOfBody (body : List Char) : List Command :=
  ((splitBy isPipeTok body).map (fun seg => Command.mk (wordsOfSeg seg))).filter
    (fun c => !c.args.isEmpty)

/-- Declarative command list: the commands of the part before the first
`>` or newline. -/
def jobSpecCommands (l : List Char) : List Command :=
  cmdsOfBody (l.takeWhile isBodyTok)

/-- Declarative redirect target: empty unless the first stopping character
is `>`, in which case it is the first word after it, separators skipped. -/
def jobSpecRedirect (l : List Char) : List Char :=
  match l.dropWhile isBodyTok with
  | [] => []
  | c :: r =>
    if ToToken c = Token.Redirect then (r.dropWhile isSepTok).takeWhile isStrTok
    else []

/-- Declarative job value for a whole input. -/
def jobSpec (l : List Char) : Job :=
  { commands := jobSpecCommands l, redirectFilename := jobSpecRedirect l }

/-! ## Basic token and cursor lemmas -/

theorem toToken_eq_end_iff (c : Char) : ToToken c = Token.End ↔ c = '\n' := by
  unfold ToToken
  split_ifs with h1 h2 h3 h4 <;> simp_all

theorem toToken_eq_sep_iff (c : Char) : ToToken c = Token.StrSeparator ↔ c = ' ' := by
  unfold ToToken
  split_ifs with h1 h2 h3 h4 <;> simp_all

theorem toToken_eq_pipe_iff (c : Char) : ToToken c = Token.Pipe ↔ c = '|' := by
  unfold ToToken
  split_ifs with h1 h2 h3 h4 <;> simp_all

theorem toToken_eq_redirect_iff (c : Char) : ToToken c = Token.Redirect ↔ c = '>' := by
  unfold ToToken
  split_ifs with h1 h2 h3 h4 <;> simp_all

theorem toToken_str_of_ne (c : Char) (h1 : c ≠ '|') (h2 : c ≠ '>') (h3 : c ≠ ' ')
    (h4 : c ≠ '\n') : ToToken c = Token.Str := by
  unfold ToToken
  split_ifs <;> simp_all

/-- `CurrentChar` reads the head of the remaining suffix (newline at the
end), as long as the position invariant holds. -/
theorem currentChar_eq_headChar (s : List Char) (i : Nat) (h : i ≤ s.length) :
    StringToBeParsed.CurrentChar ⟨s, i⟩ = headChar (s.drop i) := by
  rcases eq_or_lt_of_le h with heq | hlt
  · subst heq
    simp [StringToBeParsed.CurrentChar, headChar, List.drop_length]
  · have hnil : s ≠ [] := by
      intro hn
      simp [hn] at hlt
    have hcond : ¬ (s = [] ∨ i = s.length) := by
      rintro (hn | he)
      · exact hnil hn
      · omega
    show (if s = [] ∨ i = s.length then '\n' else s.getD i '\n') = headChar (s.drop i)
    rw [if_neg hcond, List.getD_eq_getElem _ _ hlt, List.drop_eq_getElem_cons hlt]
    rfl

theorem nextChar_snd_of_lt {s : List Char} {i : Nat} (h : i < s.length) :
    (StringToBeParsed.NextChar ⟨s, i⟩).2 = ⟨s, i + 1⟩ := by
  simp [StringToBeParsed.NextChar, h]

theorem nextChar_snd_of_ge {s : List Char} {i : Nat} (h : ¬ i < s.length) :
    (StringToBeParsed.NextChar ⟨s, i⟩).2 = ⟨s, i⟩ := by
  simp [StringToBeParsed.NextChar, h]

/-- A position at the end yields the terminator token, contrapositively:
a non-`End` token means the position is strictly inside the string. -/
theorem lt_of_tok_ne_end {s : List Char} {i : Nat} (h : i ≤ s.length)
    (hne : ToToken (StringToBeParsed.CurrentChar ⟨s, i⟩) ≠ Token.End) :
    i < s.length := by
  rcases eq_or_lt_of_le h with heq | hlt
  · exfalso
    apply hne
    rw [currentChar_eq_headChar s i h, heq, List.drop_length]
    simp [headChar, toToken_eq_end_iff]
  · exact hlt

theorem lt_length_of_drop_cons {s : List Char} {i : Nat} {c : Char} {t : List Char}
    (h : s.drop i = c :: t) : i < s.length := by
  by_contra hge
  rw [List.drop_eq_nil_of_le (by omega)] at h
  exact (List.cons_ne_nil c t) h.symm

theorem drop_succ_of_drop_cons {s : List Char} {i : Nat} {c : Char} {t : List Char}
    (h : s.drop i = c :: t) : s.drop (i + 1) = t := by
  rw [← List.tail_drop, h]
  rfl

/-- Dropping as many characters as a `takeWhile` run is long lands exactly
on the `dropWhile` suffix. -/
theorem drop_takeWhile_length (q : Char → Bool) :
    ∀ l : List Char, l.drop (l.takeWhile q).length = l.dropWhile q := by
  intro l
  induction l with
  | nil => rfl
  | cons c t ih =>
    by_cases hq : q c
    · rw [List.takeWhile_cons_of_pos hq, List.dropWhile_cons_of_pos hq]
      simpa using ih
    · rw [List.takeWhile_cons_of_neg hq, List.dropWhile_cons_of_neg hq]
      rfl

/-! ## Fuel specifications of the parsing loops -/

theorem skipSeparatorsGo_spec (fuel : Nat) :
    ∀ (s : List Char) (i : Nat), i ≤ s.length → s.length - i < fuel →
      skipSeparatorsGo fuel ⟨s, i⟩ = ⟨s, i + ((s.drop i).takeWhile isSepTok).length⟩ := by
  induction fuel with
  | zero =>
    intro s i hi hf
    omega
  | succ f ih =>
    intro s i hi hf
    cases ht : s.drop i with
    | nil =>
      have hcur : StringToBeParsed.CurrentChar ⟨s, i⟩ = '\n' := by
        rw [currentChar_eq_headChar s i hi, ht]
        rfl
      simp [skipSeparatorsGo, hcur, ToToken, ht]
    | cons c t =>
      have hlt : i < s.length := lt_length_of_drop_cons ht
      have hcur : StringToBeParsed.CurrentChar ⟨s, i⟩ = c := by
        rw [currentChar_eq_headChar s i hi, ht]
        rfl
      by_cases hc : ToToken c = Token.StrSeparator
      · have hsep : isSepTok c = true := by
          simp [isSepTok, hc]
        have step : skipSeparatorsGo (f + 1) ⟨s, i⟩ = skipSeparatorsGo f ⟨s, i + 1⟩ := by
          rw [skipSeparatorsGo, hcur, if_pos hc, nextChar_snd_of_lt hlt]
        rw [step, ih s (i + 1) (by omega) (by omega), drop_succ_of_drop_cons ht,
          List.takeWhile_cons_of_pos hsep]
        simp only [StringToBeParsed.mk.injEq, List.length_cons]
        exact ⟨trivial, by omega⟩
      · have hsep : ¬ isSepTok c = true := by
          simp [isSepTok, hc]
        rw [skipSeparatorsGo, hcur, if_neg hc, List.takeWhile_cons_of_neg hsep]
        simp

theorem parseStrGo_spec (fuel : Nat) :
    ∀ (s : List Char) (i : Nat), i ≤ s.length → s.length - i < fuel →
      ParseStrGo fuel ⟨s, i⟩ =
        ((s.drop i).takeWhile isStrTok,
          ⟨s, i + ((s.drop i).takeWhile isStrTok).length⟩) := by
  induction fuel with
  | zero =>
    intro s i hi hf
    omega
  | succ f ih =>
    intro s i hi hf
    cases ht : s.drop i with
    | nil =>
      have hcur : StringToBeParsed.CurrentChar ⟨s, i⟩ = '\n' := by
        rw [currentChar_eq_headChar s i hi, ht]
        rfl
      simp [ParseStrGo, hcur, ToToken, ht]
    | cons c t =>
      have hlt : i < s.length := lt_length_of_drop_cons ht
      have hcur : StringToBeParsed.CurrentChar ⟨s, i⟩ = c := by
        rw [currentChar_eq_headChar s i hi, ht]
        rfl
      by_cases hc : ToToken c = Token.Str
      · have hstr : isStrTok c = true := by
          simp [isStrTok, hc]
        have step : ParseStrGo (f + 1) ⟨s, i⟩ =
            (c :: (ParseStrGo f ⟨s, i + 1⟩).1, (ParseStrGo f ⟨s, i + 1⟩).2) := by
          rw [ParseStrGo]
          simp only [hcur, if_pos hc, nextChar_snd_of_lt hlt]
        rw [step, ih s (i + 1) (by omega) (by omega), drop_succ_of_drop_cons ht,
          List.takeWhile_cons_of_pos hstr]
        simp only [Prod.mk.injEq, StringToBeParsed.mk.injEq, List.length_cons]
        exact ⟨trivial, trivial, by omega⟩
      · have hstr : ¬ isStrTok c = true := by
          simp [isStrTok, hc]
        rw [ParseStrGo]
        simp only [hcur, if_neg hc, List.takeWhile_cons_of_neg hstr]
        simp

/-- Wrapper form of `skipSeparatorsGo_spec`: the built-in fuel is always
sufficient. -/
theorem skipSeparators_spec (s : List Char) (i : Nat) (h : i ≤ s.length) :
    skipSeparators ⟨s, i⟩ = ⟨s, i + ((s.drop i).takeWhile isSepTok).length⟩ :=
  skipSeparatorsGo_spec (s.length + 1) s i h (by omega)

/-- Wrapper form of `parseStrGo_spec`: the built-in fuel is always
sufficient. -/
theorem parseStr_spec (s : List Char) (i : Nat) (h : i ≤ s.length) :
    ParseStr ⟨s, i⟩ =
      ((s.drop i).takeWhile isStrTok,
        ⟨s, i + ((s.drop i).takeWhile isStrTok).length⟩) :=
  parseStrGo_spec (s.length + 1) s i h (by omega)

/-! ## Algebra of `splitBy` -/

/-- Join two group lists: the last group of the first list merges with the
first group of the second, as splitting a concatenation does. -/
def glue : List (List Char) → List (List Char) → List (List Char)
  | [], hs => hs
  | [g], [] => [g]
  | [g], h :: hs => (g ++ h) :: hs
  | g :: gs, hs => g :: glue gs hs

theorem glue_single (g h : List Char) (hs : List (List Char)) :
    glue [g] (h :: hs) = (g ++ h) :: hs := rfl

theorem glue_cons_cons (g g' : List Char) (gs hs : List (List Char)) :
    glue (g :: g' :: gs) hs = g :: glue (g' :: gs) hs := rfl

theorem splitBy_ne_nil (q : Char → Bool) (l : List Char) : splitBy q l ≠ [] := by
  cases l with
  | nil => simp [splitBy]
  | cons c cs =>
    cases h : splitBy q cs with
    | nil => simp [splitBy, h]
    | cons g gs => by_cases hq : q c <;> simp [splitBy, h, hq]

theorem splitBy_cons_of_pos (q : Char → Bool) {c : Char} (l : List Char)
    (hq : q c = true) : splitBy q (c :: l) = [] :: splitBy q l := by
  cases h : splitBy q l with
  | nil => exact absurd h (splitBy_ne_nil q l)
  | cons g gs => simp [splitBy, h, hq]

theorem splitBy_cons_of_neg (q : Char → Bool) {c : Char} (l : List Char)
    (hq : q c = false) : splitBy q (c :: l) =
      (c :: (splitBy q l).headI) :: (splitBy q l).tail := by
  cases h : splitBy q l with
  | nil => exact absurd h (splitBy_ne_nil q l)
  | cons g gs => simp [splitBy, h, hq]

/-- Splitting a concatenation glues the two splittings together. -/
theorem splitBy_append (q : Char → Bool) (a b : List Char) :
    splitBy q (a ++ b) = glue (splitBy q a) (splitBy q b) := by
  induction a with
  | nil =>
    cases hb : splitBy q b with
    | nil => exact absurd hb (splitBy_ne_nil q b)
    | cons h hs =>
      rw [List.nil_append, hb]
      show h :: hs = glue [[]] (h :: hs)
      rw [glue_single, List.nil_append]
  | cons c a ih =>
    by_cases hq : q c
    · rw [List.cons_append, splitBy_cons_of_pos _ _ hq, splitBy_cons_of_pos _ _ hq, ih]
      cases hA : splitBy q a with
      | nil => exact absurd hA (splitBy_ne_nil q a)
      | cons g gs => rw [glue_cons_cons]
    · rw [List.cons_append,
        splitBy_cons_of_neg _ _ (Bool.eq_false_iff.mpr hq),
        splitBy_cons_of_neg _ _ (Bool.eq_false_iff.mpr hq), ih]
      cases hA : splitBy q a with
      | nil => exact absurd hA (splitBy_ne_nil q a)
      | cons g gs =>
        cases gs with
        | nil =>
          cases hb : splitBy q b with
          | nil => exact absurd hb (splitBy_ne_nil q b)
          | cons h hs => simp [glue_single]
        | cons g' gs' => simp [glue_cons_cons]

/-- Splitting a delimiter-free list yields the single group. -/
theorem splitBy_all_neg (q : Char → Bool) (w : List Char)
    (hw : ∀ c ∈ w, q c = false) : splitBy q w = [w] := by
  induction w with
  | nil => rfl
  | cons c w ih =>
    rw [splitBy_cons_of_neg _ _ (hw c (by simp)),
      ih (fun d hd => hw d (by simp [hd]))]
    rfl

/-! ## takeWhile and dropWhile helpers -/

theorem takeWhile_append_all (q : Char → Bool) (a l : List Char)
    (ha : ∀ c ∈ a, q c = true) : (a ++ l).takeWhile q = a ++ l.takeWhile q := by
  induction a with
  | nil => rfl
  | cons c a ih =>
    rw [List.cons_append, List.takeWhile_cons_of_pos (ha c (by simp)),
      ih (fun d hd => ha d (by simp [hd])), List.cons_append]

theorem dropWhile_append_all (q : Char → Bool) (a l : List Char)
    (ha : ∀ c ∈ a, q c = true) : (a ++ l).dropWhile q = l.dropWhile q := by
  induction a with
  | nil => rfl
  | cons c a ih =>
    rw [List.cons_append, List.dropWhile_cons_of_pos (ha c (by simp)),
      ih (fun d hd => ha d (by simp [hd]))]

theorem dropWhile_head_false (q : Char → Bool) :
    ∀ (l : List Char) {c : Char} {t : List Char}, l.dropWhile q = c :: t → q c = false := by
  intro l
  induction l with
  | nil =>
    intro c t h
    simp [List.dropWhile] at h
  | cons a l ih =>
    intro c t h
    by_cases hq : q a
    · rw [List.dropWhile_cons_of_pos hq] at h
      exact ih h
    · rw [List.dropWhile_cons_of_neg hq] at h
      cases h
      exact Bool.eq_false_iff.mpr hq

/-- A `takeWhile` by a weaker predicate factors through a `takeWhile` by a
stronger one. -/
theorem takeWhile_split (q r : Char → Bool) (t : List Char)
    (himp : ∀ c, q c = true → r c = true) :
    t.takeWhile r = t.takeWhile q ++ (t.dropWhile q).takeWhile r := by
  conv_lhs => rw [← List.takeWhile_append_dropWhile (p := q) (l := t)]
  rw [takeWhile_append_all _ _ _ (fun c hc => himp c (List.mem_takeWhile_imp hc))]

theorem drop_add_length_takeWhile (q : Char → Bool) (s : List Char) (i : Nat) :
    s.drop (i + ((s.drop i).takeWhile q).length) = (s.drop i).dropWhile q := by
  rw [← List.drop_drop, drop_takeWhile_length]

theorem takeWhile_length_le (q : Char → Bool) :
    ∀ l : List Char, (l.takeWhile q).length ≤ l.length := by
  intro l
  induction l with
  | nil => simp
  | cons c t ih =>
    by_cases hq : q c
    · rw [List.takeWhile_cons_of_pos hq]
      simpa using ih
    · rw [List.takeWhile_cons_of_neg hq]
      simp

theorem add_length_takeWhile_le (q : Char → Bool) (s : List Char) (i : Nat)
    (h : i ≤ s.length) : i + ((s.drop i).takeWhile q).length ≤ s.length := by
  have h1 : ((s.drop i).takeWhile q).length ≤ (s.drop i).length :=
    takeWhile_length_le q (s.drop i)
  rw [List.length_drop] at h1
  omega

/-! ## Token class helpers -/

theorem sepTok_of_tok {c : Char} (h : ToToken c = Token.StrSeparator) :
    isSepTok c = true := by
  simp [isSepTok, h]

theorem sepTok_false_of_tok {c : Char} (h : ToToken c ≠ Token.StrSeparator) :
    isSepTok c = false := by
  simp [isSepTok, h]

theorem strTok_of_tok {c : Char} (h : ToToken c = Token.Str) : isStrTok c = true := by
  simp [isStrTok, h]

theorem strTok_false_of_tok {c : Char} (h : ToToken c ≠ Token.Str) :
    isStrTok c = false := by
  simp [isStrTok, h]

theorem pipeTok_of_tok {c : Char} (h : ToToken c = Token.Pipe) : isPipeTok c = true := by
  simp [isPipeTok, h]

theorem pipeTok_false_of_tok {c : Char} (h : ToToken c ≠ Token.Pipe) :
    isPipeTok c = false := by
  simp [isPipeTok, h]

theorem sepStr_of_sep {c : Char} (h : isSepTok c = true) : isSepStrTok c = true := by
  simp [isSepStrTok, h]

theorem sepStr_of_str {c : Char} (h : isStrTok c = true) : isSepStrTok c = true := by
  simp [isSepStrTok, h]

theorem sepStr_false_iff (c : Char) :
    isSepStrTok c = false ↔ isSepTok c = false ∧ isStrTok c = false := by
  simp [isSepStrTok]

theorem sep_false_of_str {c : Char} (h : isStrTok c = true) : isSepTok c = false := by
  simp only [isStrTok, decide_eq_true_eq] at h
  simp [isSepTok, h]

theorem body_of_sepStr {c : Char} (h : isSepStrTok c = true) : isBodyTok c = true := by
  rcases Bool.or_eq_true_iff.mp (by simpa [isSepStrTok] using h) with hs | hs
  · simp only [isSepTok, decide_eq_true_eq] at hs
    simp [isBodyTok, hs]
  · simp only [isStrTok, decide_eq_true_eq] at hs
    simp [isBodyTok, hs]

theorem body_of_pipe {c : Char} (h : isPipeTok c = true) : isBodyTok c = true := by
  simp only [isPipeTok, decide_eq_true_eq] at h
  simp [isBodyTok, h]

theorem body_false_of_not_sepStr_pipe {c : Char} (h1 : isSepStrTok c = false)
    (h2 : isPipeTok c = false) : isBodyTok c = false := by
  rcases (sepStr_false_iff c).mp h1 with ⟨hs, ht⟩
  simp only [isSepTok, decide_eq_false_iff_not] at hs
  simp only [isStrTok, decide_eq_false_iff_not] at ht
  simp only [isPipeTok, decide_eq_false_iff_not] at h2
  cases htok : ToToken c <;> simp_all [isBodyTok]

/-! ## wordsOfSeg lemmas -/

theorem wordsOfSeg_nil : wordsOfSeg [] = [] := rfl

theorem wordsOfSeg_sep_cons (c : Char) (l : List Char) (hc : isSepTok c = true) :
    wordsOfSeg (c :: l) = wordsOfSeg l := by
  unfold wordsOfSeg
  rw [splitBy_cons_of_pos _ _ hc, List.filter_cons]
  simp

theorem wordsOfSeg_sep_append (a l : List Char) (ha : ∀ c ∈ a, isSepTok c = true) :
    wordsOfSeg (a ++ l) = wordsOfSeg l := by
  induction a with
  | nil => rfl
  | cons c a ih =>
    rw [List.cons_append, wordsOfSeg_sep_cons _ _ (ha c (by simp)),
      ih (fun d hd => ha d (by simp [hd]))]

theorem wordsOfSeg_sepfree (w : List Char) (hw : ∀ c ∈ w, isSepTok c = false) :
    wordsOfSeg w = if w = [] then [] else [w] := by
  unfold wordsOfSeg
  rw [splitBy_all_neg _ _ hw, List.filter_cons]
  by_cases hw0 : w = []
  · simp [hw0]
  · simp [hw0]

theorem wordsOfSeg_word_sep (w : List Char) (c : Char) (l : List Char)
    (hw : ∀ d ∈ w, isSepTok d = false) (hc : isSepTok c = true) :
    wordsOfSeg (w ++ c :: l) = (if w = [] then [] else [w]) ++ wordsOfSeg l := by
  unfold wordsOfSeg
  rw [splitBy_append, splitBy_all_neg _ _ hw, splitBy_cons_of_pos _ _ hc,
    glue_single, List.append_nil, List.filter_cons]
  by_cases hw0 : w = []
  · simp [hw0]
  · simp [hw0]

/-! ## Characterization of `NextCmd` -/

/-- The command loop consumes exactly the maximal run of separator/word
characters and collects its non-empty words. -/
theorem nextCmdGo_spec (fuel : Nat) :
    ∀ (s : List Char) (i : Nat) (acc : List (List Char)),
      i ≤ s.length → s.length - i < fuel →
      NextCmdGo fuel ⟨s, i⟩ acc =
        (⟨acc ++ wordsOfSeg ((s.drop i).takeWhile isSepStrTok)⟩,
          ⟨s, i + ((s.drop i).takeWhile isSepStrTok).length⟩) := by
  induction fuel with
  | zero =>
    intro s i acc hi hf
    omega
  | succ f ih =>
    intro s i acc hi hf
    have hi1 : i + ((s.drop i).takeWhile isSepTok).length ≤ s.length :=
      add_length_takeWhile_le isSepTok s i hi
    have hd1 : s.drop (i + ((s.drop i).takeWhile isSepTok).length) =
        (s.drop i).dropWhile isSepTok :=
      drop_add_length_takeWhile isSepTok s i
    have hi2 : i + ((s.drop i).takeWhile isSepTok).length +
        (((s.drop i).dropWhile isSepTok).takeWhile isStrTok).length ≤ s.length := by
      have h2 := add_length_takeWhile_le isStrTok s
        (i + ((s.drop i).takeWhile isSepTok).length) hi1
      rw [hd1] at h2
      omega
    have hd2 : s.drop (i + ((s.drop i).takeWhile isSepTok).length +
        (((s.drop i).dropWhile isSepTok).takeWhile isStrTok).length) =
        ((s.drop i).dropWhile isSepTok).dropWhile isStrTok := by
      have h2 := drop_add_length_takeWhile isStrTok s
        (i + ((s.drop i).takeWhile isSepTok).length)
      rw [hd1] at h2
      exact h2
    have hrun : (s.drop i).takeWhile isSepStrTok =
        (s.drop i).takeWhile isSepTok ++
          (((s.drop i).dropWhile isSepTok).takeWhile isStrTok ++
            ((((s.drop i).dropWhile isSepTok).dropWhile isStrTok).takeWhile isSepStrTok)) := by
      rw [takeWhile_split isSepTok isSepStrTok (s.drop i) (fun c h => sepStr_of_sep h),
        takeWhile_split isStrTok isSepStrTok ((s.drop i).dropWhile isSepTok)
          (fun c h => sepStr_of_str h)]
    have hAsep : ∀ c ∈ (s.drop i).takeWhile isSepTok, isSepTok c = true :=
      fun c hc => List.mem_takeWhile_imp hc
    have hwsep : ∀ c ∈ ((s.drop i).dropWhile isSepTok).takeWhile isStrTok,
        isSepTok c = false :=
      fun c hc => sep_false_of_str (List.mem_takeWhile_imp hc)
    simp only [NextCmdGo, skipSeparators_spec s i hi,
      parseStr_spec s (i + ((s.drop i).takeWhile isSepTok).length) hi1, hd1,
      currentChar_eq_headChar s
        (i + ((s.drop i).takeWhile isSepTok).length +
          (((s.drop i).dropWhile isSepTok).takeWhile isStrTok).length) hi2,
      hd2]
    cases htt : ((s.drop i).dropWhile isSepTok).dropWhile isStrTok with
    | nil =>
      rw [htt] at hrun
      rw [if_neg (by simp [headChar]; decide)]
      rw [hrun, List.takeWhile_nil, List.append_nil,
        wordsOfSeg_sep_append _ _ hAsep, wordsOfSeg_sepfree _ hwsep]
      by_cases hw0 : ((s.drop i).dropWhile isSepTok).takeWhile isStrTok = []
      · simp [hw0, Prod.ext_iff, StringToBeParsed.mk.injEq, List.length_append]
      · simp [hw0, Prod.ext_iff, StringToBeParsed.mk.injEq, List.length_append]
        omega
    | cons c t2' =>
      rw [htt] at hrun hd2
      have hcstr : isStrTok c = false := dropWhile_head_false isStrTok _ htt
      have hlt2 : i + ((s.drop i).takeWhile isSepTok).length +
          (((s.drop i).dropWhile isSepTok).takeWhile isStrTok).length < s.length :=
        lt_length_of_drop_cons hd2
      by_cases hctok : ToToken c = Token.StrSeparator
      · have hcsep : isSepTok c = true := sepTok_of_tok hctok
        rw [if_pos (by simpa [headChar] using hctok)]
        rw [nextChar_snd_of_lt hlt2]
        rw [ih s _ _ (by omega) (by omega)]
        rw [drop_succ_of_drop_cons hd2]
        rw [hrun, List.takeWhile_cons_of_pos (sepStr_of_sep hcsep),
          wordsOfSeg_sep_append _ _ hAsep,
          wordsOfSeg_word_sep _ _ _ hwsep hcsep]
        by_cases hw0 : ((s.drop i).dropWhile isSepTok).takeWhile isStrTok = []
        · simp [hw0, Prod.ext_iff, StringToBeParsed.mk.injEq, List.length_append]
          omega
        · simp [hw0, Prod.ext_iff, StringToBeParsed.mk.injEq, List.length_append]
          omega
      · have hcsep : isSepTok c = false := sepTok_false_of_tok hctok
        have hcss : isSepStrTok c = false := (sepStr_false_iff c).mpr ⟨hcsep, hcstr⟩
        rw [if_neg (by simpa [headChar] using hctok)]
        rw [hrun, List.takeWhile_cons_of_neg (Bool.eq_false_iff.mp hcss), List.append_nil,
          wordsOfSeg_sep_append _ _ hAsep, wordsOfSeg_sepfree _ hwsep]
        by_cases hw0 : ((s.drop i).dropWhile isSepTok).takeWhile isStrTok = []
        · simp [hw0, Prod.ext_iff, StringToBeParsed.mk.injEq, List.length_append]
        · simp [hw0, Prod.ext_iff, StringToBeParsed.mk.injEq, List.length_append]
          omega

/-! ## Characterization of `ParseJob` -/

theorem pipe_false_of_sepStr {c : Char} (h : isSepStrTok c = true) :
    isPipeTok c = false := by
  rcases Bool.or_eq_true_iff.mp (by simpa [isSepStrTok] using h) with hs | hs
  · simp only [isSepTok, decide_eq_true_eq] at hs
    simp [isPipeTok, hs]
  · simp only [isStrTok, decide_eq_true_eq] at hs
    simp [isPipeTok, hs]

/-- A `dropWhile` by a weaker predicate factors through a `dropWhile` by a
stronger one. -/
theorem dropWhile_split (q r : Char → Bool) (t : List Char)
    (himp : ∀ c, q c = true → r c = true) :
    t.dropWhile r = (t.dropWhile q).dropWhile r := by
  conv_lhs => rw [← List.takeWhile_append_dropWhile (p := q) (l := t)]
  rw [dropWhile_append_all _ _ _ (fun c hc => himp c (List.mem_takeWhile_imp hc))]

theorem cmdsOfBody_pipefree (b : List Char) (hb : ∀ c ∈ b, isPipeTok c = false) :
    cmdsOfBody b = if wordsOfSeg b = [] then [] else [⟨wordsOfSeg b⟩] := by
  unfold cmdsOfBody
  rw [splitBy_all_neg _ _ hb, List.map_cons, List.map_nil, List.filter_cons]
  by_cases h0 : wordsOfSeg b = [] <;> simp [h0]

theorem cmdsOfBody_pipe_cons (b : List Char) (c : Char) (B : List Char)
    (hb : ∀ d ∈ b, isPipeTok d = false) (hc : isPipeTok c = true) :
    cmdsOfBody (b ++ c :: B) =
      (if wordsOfSeg b = [] then [] else [⟨wordsOfSeg b⟩]) ++ cmdsOfBody B := by
  unfold cmdsOfBody
  rw [splitBy_append, splitBy_all_neg _ _ hb, splitBy_cons_of_pos _ _ hc, glue_single,
    List.append_nil, List.map_cons, List.filter_cons]
  by_cases h0 : wordsOfSeg b = [] <;> simp [h0]

/-- `NextCmd` on an in-range cursor. -/
theorem nextCmd_spec (s : List Char) (i : Nat) (h : i ≤ s.length) :
    NextCmd ⟨s, i⟩ =
      (⟨wordsOfSeg ((s.drop i).takeWhile isSepStrTok)⟩,
        ⟨s, i + ((s.drop i).takeWhile isSepStrTok).length⟩) :=
  nextCmdGo_spec (s.length + 1) s i [] h (by omega)

/-- The pipeline loop consumes exactly the maximal run of non-redirect,
non-terminator characters and collects the non-empty commands. -/
theorem parseJobGo_spec (fuel : Nat) :
    ∀ (s : List Char) (i : Nat) (acc : List Command),
      i ≤ s.length → s.length - i < fuel →
      ParseJobGo fuel ⟨s, i⟩ acc =
        (acc ++ cmdsOfBody ((s.drop i).takeWhile isBodyTok),
          ⟨s, i + ((s.drop i).takeWhile isBodyTok).length⟩) := by
  induction fuel with
  | zero =>
    intro s i acc hi hf
    omega
  | succ f ih =>
    intro s i acc hi hf
    have hi1 : i + ((s.drop i).takeWhile isSepTok).length ≤ s.length :=
      add_length_takeWhile_le isSepTok s i hi
    have hd1 : s.drop (i + ((s.drop i).takeWhile isSepTok).length) =
        (s.drop i).dropWhile isSepTok :=
      drop_add_length_takeWhile isSepTok s i
    have hi2 : i + ((s.drop i).takeWhile isSepTok).length +
        (((s.drop i).dropWhile isSepTok).takeWhile isSepStrTok).length ≤ s.length := by
      have h2 := add_length_takeWhile_le isSepStrTok s
        (i + ((s.drop i).takeWhile isSepTok).length) hi1
      rw [hd1] at h2
      omega
    have hd2 : s.drop (i + ((s.drop i).takeWhile isSepTok).length +
        (((s.drop i).dropWhile isSepTok).takeWhile isSepStrTok).length) =
        ((s.drop i).dropWhile isSepTok).dropWhile isSepStrTok := by
      have h2 := drop_add_length_takeWhile isSepStrTok s
        (i + ((s.drop i).takeWhile isSepTok).length)
      rw [hd1] at h2
      exact h2
    have hsplitR : (s.drop i).takeWhile isSepStrTok =
        (s.drop i).takeWhile isSepTok ++
          ((s.drop i).dropWhile isSepTok).takeWhile isSepStrTok :=
      takeWhile_split isSepTok isSepStrTok (s.drop i) (fun c h => sepStr_of_sep h)
    have hbody : (s.drop i).takeWhile isBodyTok =
        (s.drop i).takeWhile isSepStrTok ++
          (((s.drop i).dropWhile isSepTok).dropWhile isSepStrTok).takeWhile isBodyTok := by
      rw [takeWhile_split isSepStrTok isBodyTok (s.drop i) (fun c h => body_of_sepStr h),
        dropWhile_split isSepTok isSepStrTok (s.drop i) (fun c h => sepStr_of_sep h)]
    have hAsep : ∀ c ∈ (s.drop i).takeWhile isSepTok, isSepTok c = true :=
      fun c hc => List.mem_takeWhile_imp hc
    have hRss : ∀ c ∈ (s.drop i).takeWhile isSepStrTok, isSepStrTok c = true :=
      fun c hc => List.mem_takeWhile_imp hc
    have hRpf : ∀ c ∈ (s.drop i).takeWhile isSepStrTok, isPipeTok c = false :=
      fun c hc => pipe_false_of_sepStr (hRss c hc)
    have hwR : wordsOfSeg ((s.drop i).takeWhile isSepStrTok) =
        wordsOfSeg (((s.drop i).dropWhile isSepTok).takeWhile isSepStrTok) := by
      rw [hsplitR, wordsOfSeg_sep_append _ _ hAsep]
    simp only [ParseJobGo, skipSeparators_spec s i hi,
      nextCmd_spec s (i + ((s.drop i).takeWhile isSepTok).length) hi1, hd1,
      currentChar_eq_headChar s
        (i + ((s.drop i).takeWhile isSepTok).length +
          (((s.drop i).dropWhile isSepTok).takeWhile isSepStrTok).length) hi2,
      hd2]
    cases htt : ((s.drop i).dropWhile isSepTok).dropWhile isSepStrTok with
    | nil =>
      rw [htt] at hbody
      rw [if_neg (by simp [headChar]; decide)]
      rw [hbody, List.takeWhile_nil, List.append_nil,
        cmdsOfBody_pipefree _ hRpf, hwR]
      by_cases hw0 : wordsOfSeg (((s.drop i).dropWhile isSepTok).takeWhile isSepStrTok) = []
      · simp [hw0, Prod.ext_iff, StringToBeParsed.mk.injEq, hsplitR, List.length_append]
        omega
      · simp [hw0, Prod.ext_iff, StringToBeParsed.mk.injEq, hsplitR, List.length_append]
        omega
    | cons c t2' =>
      rw [htt] at hbody hd2
      have hcss : isSepStrTok c = false := dropWhile_head_false isSepStrTok _ htt
      have hlt2 : i + ((s.drop i).takeWhile isSepTok).length +
          (((s.drop i).dropWhile isSepTok).takeWhile isSepStrTok).length < s.length :=
        lt_length_of_drop_cons hd2
      by_cases hctok : ToToken c = Token.Pipe
      · have hcp : isPipeTok c = true := pipeTok_of_tok hctok
        rw [if_pos (by simpa [headChar] using hctok)]
        rw [nextChar_snd_of_lt hlt2]
        rw [ih s _ _ (by omega) (by omega)]
        rw [drop_succ_of_drop_cons hd2]
        rw [hbody, List.takeWhile_cons_of_pos (body_of_pipe hcp),
          cmdsOfBody_pipe_cons _ _ _ hRpf hcp, hwR]
        by_cases hw0 : wordsOfSeg (((s.drop i).dropWhile isSepTok).takeWhile isSepStrTok) = []
        · simp [hw0, Prod.ext_iff, StringToBeParsed.mk.injEq, hsplitR, List.length_append]
          omega
        · simp [hw0, Prod.ext_iff, StringToBeParsed.mk.injEq, hsplitR, List.length_append]
          omega
      · have hcp : isPipeTok c = false := pipeTok_false_of_tok hctok
        have hcb : isBodyTok c = false := body_false_of_not_sepStr_pipe hcss hcp
        rw [if_neg (by simpa [headChar] using hctok)]
        rw [hbody, List.takeWhile_cons_of_neg (Bool.eq_false_iff.mp hcb), List.append_nil,
          cmdsOfBody_pipefree _ hRpf, hwR]
        by_cases hw0 : wordsOfSeg (((s.drop i).dropWhile isSepTok).takeWhile isSepStrTok) = []
        · simp [hw0, Prod.ext_iff, StringToBeParsed.mk.injEq, hsplitR, List.length_append]
          omega
        · simp [hw0, Prod.ext_iff, StringToBeParsed.mk.injEq, hsplitR, List.length_append]
          omega

/-- Any fuel beyond the canonical bound gives the same result: the
pipeline loop terminates within `length + 1` iterations. -/
theorem parseJobFull_fuel_irrelevant (fuel : Nat) (s : List Char)
    (hf : s.length + 1 ≤ fuel) :
    ParseJobFull fuel ⟨s, 0⟩ = ParseJobFull (s.length + 1) ⟨s, 0⟩ := by
  simp only [ParseJobFull, parseJobGo_spec fuel s 0 [] (by omega) (by omega),
    parseJobGo_spec (s.length + 1) s 0 [] (by omega) (by omega)]

/-- The parser agrees with the declarative job description. -/
theorem parseJob_job_eq (s : List Char) : (ParseJob ⟨s, 0⟩).1 = jobSpec s := by
  have hb : (s.takeWhile isBodyTok).length ≤ s.length := takeWhile_length_le _ _
  have hdb : s.drop (s.takeWhile isBodyTok).length = s.dropWhile isBodyTok :=
    drop_takeWhile_length isBodyTok s
  simp only [ParseJob, ParseJobFull,
    parseJobGo_spec (s.length + 1) s 0 [] (by omega) (by omega), List.drop_zero,
    List.nil_append, Nat.zero_add]
  rw [currentChar_eq_headChar s (s.takeWhile isBodyTok).length hb, hdb]
  cases hdw : s.dropWhile isBodyTok with
  | nil =>
    rw [if_neg (by simp [headChar]; decide)]
    simp [jobSpec, jobSpecCommands, jobSpecRedirect, hdw]
  | cons c r =>
    have hdb2 : s.drop (s.takeWhile isBodyTok).length = c :: r := by
      rw [hdb, hdw]
    have hlt : (s.takeWhile isBodyTok).length < s.length := lt_length_of_drop_cons hdb2
    by_cases hc : ToToken c = Token.Redirect
    · rw [if_pos (by simpa [headChar] using hc)]
      rw [nextChar_snd_of_lt hlt]
      have hb1 : (s.takeWhile isBodyTok).length + 1 ≤ s.length := by omega
      rw [skipSeparators_spec s ((s.takeWhile isBodyTok).length + 1) hb1]
      have hdr : s.drop ((s.takeWhile isBodyTok).length + 1) = r :=
        drop_succ_of_drop_cons hdb2
      rw [hdr]
      have hk := takeWhile_length_le isSepTok r
      have hrl : r.length + ((s.takeWhile isBodyTok).length + 1) = s.length := by
        have h3 := congrArg List.length hdr
        rw [List.length_drop] at h3
        omega
      have hb2 : (s.takeWhile isBodyTok).length + 1 + (r.takeWhile isSepTok).length ≤
          s.length := by omega
      rw [parseStr_spec s ((s.takeWhile isBodyTok).length + 1 +
        (r.takeWhile isSepTok).length) hb2]
      have hdr2 : s.drop ((s.takeWhile isBodyTok).length + 1 +
          (r.takeWhile isSepTok).length) = r.dropWhile isSepTok := by
        have h2 := drop_add_length_takeWhile isSepTok s
          ((s.takeWhile isBodyTok).length + 1)
        rw [hdr] at h2
        exact h2
      rw [hdr2]
      simp [jobSpec, jobSpecCommands, jobSpecRedirect, hdw, hc]
    · rw [if_neg (by simpa [headChar] using hc)]
      simp [jobSpec, jobSpecCommands, jobSpecRedirect, hdw, hc]

/-- The exit cursor of the pipeline loop sits right after the body. -/
theorem parseJobGo_exit (s : List Char) :
    (ParseJobGo (s.length + 1) ⟨s, 0⟩ []).2 = ⟨s, (s.takeWhile isBodyTok).length⟩ := by
  rw [parseJobGo_spec (s.length + 1) s 0 [] (by omega) (by omega)]
  simp

/-! ## Append lemmas in the presence of a stopping character -/

theorem currentChar_end (s : List Char) (j : Nat) (h : s.length ≤ j) :
    StringToBeParsed.CurrentChar ⟨s, j⟩ = '\n' := by
  show (if s = [] ∨ j = s.length then '\n' else s.getD j '\n') = '\n'
  by_cases hnil : s = []
  · rw [if_pos (Or.inl hnil)]
  · rcases eq_or_lt_of_le h with heq | hlt
    · rw [if_pos (Or.inr heq.symm)]
    · rw [if_neg ?hc]
      · exact List.getD_eq_default _ _ (by omega)
      · rintro (h1 | h2)
        · exact hnil h1
        · omega

/-- Once a failing character exists inside `a`, appending text after `a`
does not change the `takeWhile`. -/
theorem takeWhile_append_stop (q : Char → Bool) (a x : List Char) {d : Char}
    {r : List Char} (h : a.dropWhile q = d :: r) :
    (a ++ x).takeWhile q = a.takeWhile q := by
  have hd : q d = false := dropWhile_head_false q a h
  have ha : a = a.takeWhile q ++ (d :: r) := by
    rw [← h]
    exact (List.takeWhile_append_dropWhile (p := q) (l := a)).symm
  conv_lhs => rw [ha]
  conv_rhs => rw [ha]
  rw [List.append_assoc,
    takeWhile_append_all q _ _ (fun c hc => List.mem_takeWhile_imp hc),
    takeWhile_append_all q _ _ (fun c hc => List.mem_takeWhile_imp hc),
    List.cons_append, List.takeWhile_cons_of_neg (Bool.eq_false_iff.mp hd),
    List.takeWhile_cons_of_neg (Bool.eq_false_iff.mp hd)]

/-- Once a failing character exists inside `a`, appended text lands after
the `dropWhile` suffix. -/
theorem dropWhile_append_stop (q : Char → Bool) (a x : List Char) {d : Char}
    {r : List Char} (h : a.dropWhile q = d :: r) :
    (a ++ x).dropWhile q = d :: (r ++ x) := by
  have hd : q d = false := dropWhile_head_false q a h
  have ha : a = a.takeWhile q ++ (d :: r) := by
    rw [← h]
    exact (List.takeWhile_append_dropWhile (p := q) (l := a)).symm
  conv_lhs => rw [ha]
  rw [List.append_assoc,
    dropWhile_append_all q _ _ (fun c hc => List.mem_takeWhile_imp hc),
    List.cons_append, List.dropWhile_cons_of_neg (Bool.eq_false_iff.mp hd)]

/-! ## Inserting a space next to a space does not change the parse -/

theorem filter_glue_extra_nil (gs : List (List Char)) (hs : List (List Char))
    (hgs : gs ≠ []) :
    (glue gs ([] :: [] :: hs)).filter (fun g => !g.isEmpty) =
      (glue gs ([] :: hs)).filter (fun g => !g.isEmpty) := by
  induction gs with
  | nil => exact absurd rfl hgs
  | cons g gs ih =>
    cases gs with
    | nil =>
      rw [glue_single, glue_single, List.filter_cons, List.filter_cons]
      by_cases hg : (g ++ []).isEmpty <;> simp [hg, List.filter_cons]
    | cons g' gs' =>
      rw [glue_cons_cons, glue_cons_cons, List.filter_cons, List.filter_cons,
        ih (by simp)]

theorem wordsOfSeg_insert_sep (a b : List Char) :
    wordsOfSeg (a ++ ' ' :: ' ' :: b) = wordsOfSeg (a ++ ' ' :: b) := by
  unfold wordsOfSeg
  rw [splitBy_append, splitBy_append, splitBy_cons_of_pos _ _ (by decide),
    splitBy_cons_of_pos _ _ (by decide)]
  exact filter_glue_extra_nil _ _ (splitBy_ne_nil _ _)

theorem filtermap_glue_congr_head (h1 h2 : List Char)
    (hw : ∀ g : List Char, wordsOfSeg (g ++ h1) = wordsOfSeg (g ++ h2)) :
    ∀ (gs hs : List (List Char)), gs ≠ [] →
    ((glue gs (h1 :: hs)).map (fun seg => Command.mk (wordsOfSeg seg))).filter
        (fun c => !c.args.isEmpty) =
      ((glue gs (h2 :: hs)).map (fun seg => Command.mk (wordsOfSeg seg))).filter
        (fun c => !c.args.isEmpty) := by
  intro gs
  induction gs with
  | nil =>
    intro hs hgs
    exact absurd rfl hgs
  | cons g gs ih =>
    intro hs hgs
    cases gs with
    | nil =>
      rw [glue_single, glue_single, List.map_cons, List.map_cons, List.filter_cons,
        List.filter_cons, hw g]
    | cons g' gs' =>
      rw [glue_cons_cons, glue_cons_cons, List.map_cons, List.map_cons,
        List.filter_cons, List.filter_cons, ih hs (by simp)]

theorem cmdsOfBody_insert_sep (a b : List Char) :
    cmdsOfBody (a ++ ' ' :: ' ' :: b) = cmdsOfBody (a ++ ' ' :: b) := by
  unfold cmdsOfBody
  rw [splitBy_append, splitBy_append, splitBy_cons_of_neg _ _ (by decide),
    splitBy_cons_of_neg _ _ (by decide)]
  simp only [List.headI_cons, List.tail_cons]
  exact filtermap_glue_congr_head _ _
    (fun g => wordsOfSeg_insert_sep g ((splitBy isPipeTok b).headI)) _ _
    (splitBy_ne_nil _ _)

theorem takeWhile_str_insert (m b : List Char) :
    (m ++ ' ' :: ' ' :: b).takeWhile isStrTok = (m ++ ' ' :: b).takeWhile isStrTok := by
  induction m with
  | nil =>
    rw [List.nil_append, List.nil_append, List.takeWhile_cons_of_neg (by decide),
      List.takeWhile_cons_of_neg (by decide)]
  | cons c m ih =>
    by_cases hq : isStrTok c = true
    · rw [List.cons_append, List.cons_append, List.takeWhile_cons_of_pos hq,
        List.takeWhile_cons_of_pos hq, ih]
    · rw [List.cons_append, List.cons_append, List.takeWhile_cons_of_neg hq,
        List.takeWhile_cons_of_neg hq]

theorem redirect_tail_insert (a b : List Char) :
    ((a ++ ' ' :: ' ' :: b).dropWhile isSepTok).takeWhile isStrTok =
      ((a ++ ' ' :: b).dropWhile isSepTok).takeWhile isStrTok := by
  cases hda : a.dropWhile isSepTok with
  | nil =>
    have ha : ∀ c ∈ a, isSepTok c = true := by
      intro c hc
      exact List.dropWhile_eq_nil_iff.mp hda c hc
    rw [dropWhile_append_all _ _ _ ha, dropWhile_append_all _ _ _ ha,
      List.dropWhile_cons_of_pos (by decide), List.dropWhile_cons_of_pos (by decide)]
  | cons d r =>
    rw [dropWhile_append_stop isSepTok a _ hda, dropWhile_append_stop isSepTok a _ hda]
    have hd : isSepTok d = false := dropWhile_head_false _ _ hda
    by_cases hds : isStrTok d = true
    · rw [List.takeWhile_cons_of_pos hds, List.takeWhile_cons_of_pos hds,
        takeWhile_str_insert r b]
    · rw [List.takeWhile_cons_of_neg hds, List.takeWhile_cons_of_neg hds]

theorem jobSpec_insert_sep (u v : List Char) :
    jobSpec (u ++ ' ' :: ' ' :: v) = jobSpec (u ++ ' ' :: v) := by
  unfold jobSpec jobSpecCommands jobSpecRedirect
  cases hdu : u.dropWhile isBodyTok with
  | nil =>
    have hu : ∀ c ∈ u, isBodyTok c = true := by
      intro c hc
      exact List.dropWhile_eq_nil_iff.mp hdu c hc
    rw [takeWhile_append_all _ _ _ hu, takeWhile_append_all _ _ _ hu,
      dropWhile_append_all _ _ _ hu, dropWhile_append_all _ _ _ hu,
      List.takeWhile_cons_of_pos (by decide), List.takeWhile_cons_of_pos (by decide),
      List.dropWhile_cons_of_pos (by decide), List.dropWhile_cons_of_pos (by decide),
      cmdsOfBody_insert_sep u (v.takeWhile isBodyTok)]
  | cons d r =>
    rw [takeWhile_append_stop isBodyTok u _ hdu, takeWhile_append_stop isBodyTok u _ hdu,
      dropWhile_append_stop isBodyTok u _ hdu, dropWhile_append_stop isBodyTok u _ hdu]
    by_cases hdc : ToToken d = Token.Redirect
    · simp only [hdc, if_pos]
      rw [redirect_tail_insert r v]
    · simp only [if_neg hdc]

theorem jobSpec_replicate_sep (u v : List Char) :
    ∀ k : Nat, jobSpec (u ++ List.replicate (k + 1) ' ' ++ v) = jobSpec (u ++ [' '] ++ v) := by
  intro k
  induction k with
  | zero => rfl
  | succ m ih =>
    have h1 : u ++ List.replicate (m + 2) ' ' ++ v =
        u ++ ' ' :: ' ' :: (List.replicate m ' ' ++ v) := by
      simp [List.replicate_succ]
    have h2 : u ++ ' ' :: (List.replicate m ' ' ++ v) =
        u ++ List.replicate (m + 1) ' ' ++ v := by
      simp [List.replicate_succ]
    rw [h1, jobSpec_insert_sep u (List.replicate m ' ' ++ v), h2, ih]

/-! ## Round-trip machinery -/

theorem jobSpecRedirect_nil (l : List Char) (h : l.dropWhile isBodyTok = []) :
    jobSpecRedirect l = [] := by
  unfold jobSpecRedirect
  rw [h]

theorem jobSpecRedirect_cons (d : Char) (r : List Char) (l : List Char)
    (h : l.dropWhile isBodyTok = d :: r) :
    jobSpecRedirect l =
      if ToToken d = Token.Redirect then (r.dropWhile isSepTok).takeWhile isStrTok
      else [] := by
  unfold jobSpecRedirect
  rw [h]

theorem headI_mem {gs : List (List Char)} (h : gs ≠ []) : gs.headI ∈ gs := by
  cases gs with
  | nil => exact absurd rfl h
  | cons g gs => simp

theorem splitBy_mem_sub (q : Char → Bool) :
    ∀ (l : List Char) (g : List Char), g ∈ splitBy q l → ∀ c ∈ g, c ∈ l ∧ q c = false := by
  intro l
  induction l with
  | nil =>
    intro g hg c hc
    simp [splitBy] at hg
    subst hg
    simp at hc
  | cons a l ih =>
    intro g hg c hc
    by_cases hq : q a = true
    · rw [splitBy_cons_of_pos _ _ hq] at hg
      rcases List.mem_cons.mp hg with h0 | h0
      · subst h0
        simp at hc
      · have h1 := ih g h0 c hc
        exact ⟨List.mem_cons_of_mem _ h1.1, h1.2⟩
    · rw [splitBy_cons_of_neg _ _ (Bool.eq_false_iff.mpr hq)] at hg
      rcases List.mem_cons.mp hg with h0 | h0
      · subst h0
        rcases List.mem_cons.mp hc with h1 | h1
        · subst h1
          exact ⟨List.mem_cons_self _ _, Bool.eq_false_iff.mpr hq⟩
        · have h2 := ih (splitBy q l).headI (headI_mem (splitBy_ne_nil q l)) c h1
          exact ⟨List.mem_cons_of_mem _ h2.1, h2.2⟩
      · have hmem : g ∈ splitBy q l := List.mem_of_mem_tail h0
        have h2 := ih g hmem c hc
        exact ⟨List.mem_cons_of_mem _ h2.1, h2.2⟩

/-- Every command a parse produces has non-empty arguments, and every
argument is a non-empty all-`Str` word. -/
theorem jobSpec_args_inv (s : List Char) :
    ∀ cmd ∈ (jobSpec s).commands, cmd.args ≠ [] ∧
      ∀ w ∈ cmd.args, w ≠ [] ∧ ∀ c ∈ w, ToToken c = Token.Str := by
  intro cmd hcmd
  simp only [jobSpec, jobSpecCommands, cmdsOfBody] at hcmd
  have hfil := List.of_mem_filter hcmd
  have hmem := List.mem_of_mem_filter hcmd
  rcases List.mem_map.mp hmem with ⟨seg, hseg, rfl⟩
  refine ⟨by simpa using hfil, ?_⟩
  intro w hw
  have hwfil := List.of_mem_filter hw
  have hwmem := List.mem_of_mem_filter hw
  refine ⟨by simpa using hwfil, ?_⟩
  intro c hcw
  have h1 := splitBy_mem_sub isSepTok seg w hwmem c hcw
  have h2 := splitBy_mem_sub isPipeTok _ seg hseg c h1.1
  have h3 : isBodyTok c = true := List.mem_takeWhile_imp h2.1
  have hsep := h1.2
  have hpipe := h2.2
  simp only [isSepTok, decide_eq_false_iff_not] at hsep
  simp only [isPipeTok, decide_eq_false_iff_not] at hpipe
  simp only [isBodyTok, decide_eq_true_eq] at h3
  cases htok : ToToken c <;> simp_all

/-- Every character of a parsed redirect target is a `Str` character. -/
theorem jobSpec_redirect_inv (s : List Char) :
    ∀ c ∈ (jobSpec s).redirectFilename, ToToken c = Token.Str := by
  intro c hc
  simp only [jobSpec] at hc
  cases hdw : s.dropWhile isBodyTok with
  | nil =>
    rw [jobSpecRedirect_nil s hdw] at hc
    simp at hc
  | cons d r =>
    rw [jobSpecRedirect_cons d r s hdw] at hc
    by_cases hd : ToToken d = Token.Redirect
    · rw [if_pos hd] at hc
      have h1 := List.mem_takeWhile_imp hc
      simpa [isStrTok] using h1
    · rw [if_neg hd] at hc
      simp at hc

/-- Join words with a separator character. -/
def joinWith (sep : Char) : List (List Char) → List Char
  | [] => []
  | [w] => w
  | w :: ws => w ++ sep :: joinWith sep ws

theorem joinWith_single (sep : Char) (w : List Char) : joinWith sep [w] = w := rfl

theorem joinWith_cons_cons (sep : Char) (w x : List Char) (ws : List (List Char)) :
    joinWith sep (w :: x :: ws) = w ++ sep :: joinWith sep (x :: ws) := rfl

/-- Modelled from the spec (the round-trip claim's serialization of a
`Job`, which is not code of the repository): each command's args joined by
a single space, commands joined by `|`, and `>` plus the target appended
when the redirect target is non-empty. -/
def serializeJob (j : Job) : List Char :=
  joinWith '|' (j.commands.map (fun c => joinWith ' ' c.args)) ++
    (if j.redirectFilename = [] then [] else '>' :: j.redirectFilename)

theorem mem_joinWith (sep : Char) :
    ∀ (ws : List (List Char)) (c : Char), c ∈ joinWith sep ws →
      c = sep ∨ ∃ w ∈ ws, c ∈ w := by
  intro ws
  induction ws with
  | nil =>
    intro c hc
    simp [joinWith] at hc
  | cons w ws ih =>
    intro c hc
    cases ws with
    | nil =>
      right
      exact ⟨w, by simp, by simpa [joinWith] using hc⟩
    | cons x ws' =>
      rw [joinWith_cons_cons] at hc
      rcases List.mem_append.mp hc with h0 | h0
      · exact Or.inr ⟨w, by simp, h0⟩
      · rcases List.mem_cons.mp h0 with h1 | h1
        · exact Or.inl h1
        · rcases ih c h1 with h2 | ⟨w', hw', hcw⟩
          · exact Or.inl h2
          · exact Or.inr ⟨w', by simp [hw'], hcw⟩

theorem wordsOfSeg_join :
    ∀ args : List (List Char),
      (∀ w ∈ args, w ≠ [] ∧ ∀ c ∈ w, ToToken c = Token.Str) →
      wordsOfSeg (joinWith ' ' args) = args := by
  intro args
  induction args with
  | nil =>
    intro _
    rfl
  | cons w args ih =>
    intro h
    have hw := h w (by simp)
    have hwsep : ∀ d ∈ w, isSepTok d = false := by
      intro d hd
      have h1 := hw.2 d hd
      simp [isSepTok, h1]
    cases args with
    | nil =>
      rw [joinWith_single, wordsOfSeg_sepfree w hwsep, if_neg hw.1]
    | cons x args' =>
      rw [joinWith_cons_cons, wordsOfSeg_word_sep w ' ' _ hwsep (by decide), if_neg hw.1,
        ih (fun w' hw' => h w' (by simp [hw']))]
      rfl

theorem cmdsOfBody_join :
    ∀ cmds : List Command,
      (∀ cmd ∈ cmds, cmd.args ≠ [] ∧
        ∀ w ∈ cmd.args, w ≠ [] ∧ ∀ c ∈ w, ToToken c = Token.Str) →
      cmdsOfBody (joinWith '|' (cmds.map (fun c => joinWith ' ' c.args))) = cmds := by
  intro cmds
  induction cmds with
  | nil =>
    intro _
    rfl
  | cons cmd cmds ih =>
    intro h
    have hcmd := h cmd (by simp)
    have hpipefree : ∀ d ∈ joinWith ' ' cmd.args, isPipeTok d = false := by
      intro d hd
      rcases mem_joinWith ' ' _ d hd with h0 | ⟨w, hwmem, hcw⟩
      · subst h0
        decide
      · have h1 := (hcmd.2 w hwmem).2 d hcw
        simp [isPipeTok, h1]
    have hwords : wordsOfSeg (joinWith ' ' cmd.args) = cmd.args :=
      wordsOfSeg_join _ hcmd.2
    cases cmds with
    | nil =>
      rw [List.map_cons, List.map_nil, joinWith_single, cmdsOfBody_pipefree _ hpipefree,
        hwords, if_neg hcmd.1]
    | cons cmd2 cmds2 =>
      have e : joinWith ' ' cmd2.args :: List.map (fun c => joinWith ' ' c.args) cmds2 =
          List.map (fun c => joinWith ' ' c.args) (cmd2 :: cmds2) := rfl
      rw [List.map_cons, List.map_cons, joinWith_cons_cons,
        cmdsOfBody_pipe_cons _ _ _ hpipefree (by decide), hwords, if_neg hcmd.1,
        e, ih (fun c hcm => h c (by simp [hcm]))]
      rfl

/-- Parsing the serialization of a well-formed job gives it back. -/
theorem jobSpec_serialize (cmds : List Command) (red : List Char)
    (hc : ∀ cmd ∈ cmds, cmd.args ≠ [] ∧
      ∀ w ∈ cmd.args, w ≠ [] ∧ ∀ c ∈ w, ToToken c = Token.Str)
    (hr : ∀ c ∈ red, ToToken c = Token.Str) :
    jobSpec (serializeJob ⟨cmds, red⟩) = ⟨cmds, red⟩ := by
  have hbody : ∀ c ∈ joinWith '|' (cmds.map (fun c => joinWith ' ' c.args)),
      isBodyTok c = true := by
    intro c hcmem
    rcases mem_joinWith '|' _ c hcmem with h0 | ⟨w, hwmem, hcw⟩
    · subst h0
      decide
    · rcases List.mem_map.mp hwmem with ⟨cmd, hcmdmem, rfl⟩
      rcases mem_joinWith ' ' _ c hcw with h1 | ⟨w', hw', hcw'⟩
      · subst h1
        decide
      · have h2 := ((hc cmd hcmdmem).2 w' hw').2 c hcw'
        simp [isBodyTok, h2]
  unfold serializeJob
  dsimp only
  by_cases hred : red = []
  · rw [if_pos hred, List.append_nil]
    unfold jobSpec jobSpecCommands
    rw [List.takeWhile_eq_self_iff.mpr hbody, cmdsOfBody_join cmds hc,
      jobSpecRedirect_nil _ (List.dropWhile_eq_nil_iff.mpr hbody), hred]
  · rw [if_neg hred]
    obtain ⟨rc, rr, rfl⟩ : ∃ a l, red = a :: l := by
      cases red with
      | nil => exact absurd rfl hred
      | cons a l => exact ⟨a, l, rfl⟩
    unfold jobSpec jobSpecCommands
    have ht : ((joinWith '|' (cmds.map (fun c => joinWith ' ' c.args))) ++
        '>' :: rc :: rr).takeWhile isBodyTok =
        joinWith '|' (cmds.map (fun c => joinWith ' ' c.args)) := by
      rw [takeWhile_append_all _ _ _ hbody, List.takeWhile_cons_of_neg (by decide),
        List.append_nil]
    have hdwb : ((joinWith '|' (cmds.map (fun c => joinWith ' ' c.args))) ++
        '>' :: rc :: rr).dropWhile isBodyTok = '>' :: rc :: rr := by
      rw [dropWhile_append_all _ _ _ hbody, List.dropWhile_cons_of_neg (by decide)]
    rw [ht, cmdsOfBody_join cmds hc, jobSpecRedirect_cons _ _ _ hdwb, if_pos (by decide)]
    have hrc : isSepTok rc = false := by
      have h1 := hr rc (by simp)
      simp [isSepTok, h1]
    rw [List.dropWhile_cons_of_neg (Bool.eq_false_iff.mp hrc),
      List.takeWhile_eq_self_iff.mpr (by
        intro x hx
        have h1 := hr x hx
        simp [isStrTok, h1])]

/-! ## The claims -/

/-- C1: For every input string, `ParseJob` terminates and returns a `Job`
value; no input (including empty, all-whitespace, or malformed input such
as consecutive pipes or a trailing pipe) causes an error to be raised or
the parse loop to run forever.  Formally: `ParseJob` is a total function,
and any fuel at or beyond the canonical bound `length + 1` yields the very
same `Job`, so the pipeline loop always exits within `length + 1`
iterations. -/
theorem parseJob_total (s : List Char) (fuel : Nat) (h : s.length + 1 ≤ fuel) :
    ParseJobFull fuel ⟨s, 0⟩ = ParseJob ⟨s, 0⟩ := by
  simp only [ParseJob]
  exact parseJobFull_fuel_irrelevant fuel s h

theorem parseJob_total_witness :
    "a|| |".data.length + 1 ≤ 20 ∧
      ParseJobFull 20 ⟨"a|| |".data, 0⟩ = ParseJob ⟨"a|| |".data, 0⟩ :=
  ⟨by decide, parseJob_total "a|| |".data 20 (by decide)⟩

/-- C2: Every `Command` in the commands list of a `Job` returned by
`ParseJob` has a non-empty `args` list; in particular no empty `Command`
ever appears, whatever pipes the input contains. -/
theorem parseJob_commands_nonempty (s : List Char) (c : Command)
    (hc : c ∈ (ParseJob ⟨s, 0⟩).1.commands) : c.args ≠ [] := by
  rw [parseJob_job_eq] at hc
  exact (jobSpec_args_inv s c hc).1

theorem parseJob_commands_nonempty_witness :
    ((⟨["a".data]⟩ : Command) ∈ (ParseJob ⟨"a|||  b|".data, 0⟩).1.commands) ∧
      (⟨["a".data]⟩ : Command).args ≠ [] :=
  ⟨by decide, parseJob_commands_nonempty "a|||  b|".data ⟨["a".data]⟩ (by decide)⟩

/-- C3: Parsing `"cmd1 aaa    bbb     | cmd2 |cmd3|cmd4 xxx>out.txt"`
yields exactly the four commands `["cmd1","aaa","bbb"]`, `["cmd2"]`,
`["cmd3"]`, `["cmd4","xxx"]` in that order and the redirect target
`"out.txt"`. -/
theorem parseJob_scenario_pipeline :
    (ParseJob (initCursor "cmd1 aaa    bbb     | cmd2 |cmd3|cmd4 xxx>out.txt")).1 =
      ⟨[⟨["cmd1".data, "aaa".data, "bbb".data]⟩, ⟨["cmd2".data]⟩, ⟨["cmd3".data]⟩,
        ⟨["cmd4".data, "xxx".data]⟩], "out.txt".data⟩ := by
  decide

/-- C4: The redirect target is empty when the pipeline loop stops on a
token other than `Redirect`; when the loop stops on `Redirect`, the target
is the first word after the `>` once following separators are skipped —
in particular it is empty when no word follows. -/
theorem parseJob_redirect_characterization (s : List Char) :
    (ToToken ((ParseJobGo (s.length + 1) ⟨s, 0⟩ []).2.CurrentChar) ≠ Token.Redirect →
      (ParseJob ⟨s, 0⟩).1.redirectFilename = []) ∧
    (ToToken ((ParseJobGo (s.length + 1) ⟨s, 0⟩ []).2.CurrentChar) = Token.Redirect →
      (ParseJob ⟨s, 0⟩).1.redirectFilename =
        ((s.drop ((ParseJobGo (s.length + 1) ⟨s, 0⟩ []).2.m_currentPos + 1)).dropWhile
            isSepTok).takeWhile isStrTok ∧
      (((s.drop ((ParseJobGo (s.length + 1) ⟨s, 0⟩ []).2.m_currentPos + 1)).dropWhile
            isSepTok).takeWhile isStrTok = [] →
        (ParseJob ⟨s, 0⟩).1.redirectFilename = [])) := by
  have hb : (s.takeWhile isBodyTok).length ≤ s.length := takeWhile_length_le _ _
  have hdb : s.drop (s.takeWhile isBodyTok).length = s.dropWhile isBodyTok :=
    drop_takeWhile_length isBodyTok s
  rw [parseJobGo_exit, parseJob_job_eq]
  dsimp only
  rw [currentChar_eq_headChar s _ hb]
  cases hdw : s.dropWhile isBodyTok with
  | nil =>
    rw [hdb, hdw]
    refine ⟨fun _ => ?_, fun hcontra => absurd hcontra (by simp [headChar]; decide)⟩
    simp [jobSpec, jobSpecRedirect_nil s hdw]
  | cons d r =>
    rw [hdb, hdw]
    have hdb2 : s.drop (s.takeWhile isBodyTok).length = d :: r := by
      rw [hdb, hdw]
    have hdr : s.drop ((s.takeWhile isBodyTok).length + 1) = r :=
      drop_succ_of_drop_cons hdb2
    constructor
    · intro hne
      simp only [headChar] at hne
      simp [jobSpec, jobSpecRedirect_cons d r s hdw, hne]
    · intro heq
      simp only [headChar] at heq
      constructor
      · simp [jobSpec, jobSpecRedirect_cons d r s hdw, heq, hdr]
      · intro h0
        rw [hdr] at h0
        simp [jobSpec, jobSpecRedirect_cons d r s hdw, heq, h0]

theorem parseJob_redirect_characterization_witness :
    ToToken ((ParseJobGo ("a> b c".data.length + 1) ⟨"a> b c".data, 0⟩ []).2.CurrentChar) =
        Token.Redirect ∧
      (ParseJob ⟨"a> b c".data, 0⟩).1.redirectFilename =
        (("a> b c".data.drop
            ((ParseJobGo ("a> b c".data.length + 1) ⟨"a> b c".data, 0⟩ []).2.m_currentPos +
              1)).dropWhile isSepTok).takeWhile isStrTok :=
  ⟨by decide, ((parseJob_redirect_characterization "a> b c".data).2 (by decide)).1⟩

/-- Normal form of an input with respect to space runs: every maximal run
of consecutive spaces shrinks to a single space.  Two inputs differ only
in the (positive) sizes of their space runs exactly when their normal
forms coincide. -/
def collapseSpaces : List Char → List Char
  | [] => []
  | [c] => [c]
  | c :: d :: t =>
    if c = ' ' ∧ d = ' ' then collapseSpaces (d :: t)
    else c :: collapseSpaces (d :: t)

theorem collapseSpaces_cons_cons (c d : Char) (t : List Char) :
    collapseSpaces (c :: d :: t) =
      if c = ' ' ∧ d = ' ' then collapseSpaces (d :: t)
      else c :: collapseSpaces (d :: t) := rfl

theorem collapseSpaces_insert :
    ∀ (u v : List Char),
      collapseSpaces (u ++ ' ' :: ' ' :: v) = collapseSpaces (u ++ ' ' :: v) := by
  intro u
  induction u with
  | nil =>
    intro v
    show collapseSpaces (' ' :: ' ' :: v) = collapseSpaces (' ' :: v)
    rw [collapseSpaces_cons_cons, if_pos ⟨rfl, rfl⟩]
  | cons c u ih =>
    intro v
    cases u with
    | nil =>
      show collapseSpaces (c :: ' ' :: ' ' :: v) = collapseSpaces (c :: ' ' :: v)
      by_cases hc : c = ' '
      · subst hc
        rw [collapseSpaces_cons_cons, if_pos ⟨rfl, rfl⟩]
      · rw [collapseSpaces_cons_cons, if_neg (by simp [hc]), collapseSpaces_cons_cons,
          if_pos ⟨rfl, rfl⟩, collapseSpaces_cons_cons, if_neg (by simp [hc])]
    | cons d u' =>
      show collapseSpaces (c :: d :: (u' ++ ' ' :: ' ' :: v)) =
        collapseSpaces (c :: d :: (u' ++ ' ' :: v))
      rw [collapseSpaces_cons_cons, collapseSpaces_cons_cons]
      have hih := ih v
      rw [List.cons_append] at hih
      by_cases hcd : c = ' ' ∧ d = ' '
      · rw [if_pos hcd, if_pos hcd]
        exact hih
      · rw [if_neg hcd, if_neg hcd, hih, List.cons_append]

theorem collapseSpaces_step :
    ∀ s : List Char, collapseSpaces s = s ∨ ∃ u v, s = u ++ ' ' :: ' ' :: v := by
  intro s
  induction s with
  | nil => exact Or.inl rfl
  | cons c t ih =>
    cases t with
    | nil => exact Or.inl rfl
    | cons d t' =>
      by_cases hcd : c = ' ' ∧ d = ' '
      · exact Or.inr ⟨[], t', by simp [hcd.1, hcd.2]⟩
      · rcases ih with h0 | ⟨u, v, huv⟩
        · left
          rw [collapseSpaces, if_neg hcd, h0]
        · exact Or.inr ⟨c :: u, v, by rw [huv]; rfl⟩

theorem jobSpec_collapseSpaces : ∀ s : List Char, jobSpec (collapseSpaces s) = jobSpec s := by
  have H : ∀ n (s : List Char), s.length ≤ n → jobSpec (collapseSpaces s) = jobSpec s := by
    intro n
    induction n with
    | zero =>
      intro s hs
      have h0 : s = [] := by
        cases s with
        | nil => rfl
        | cons a t => simp at hs
      rw [h0]
      rfl
    | succ n ih =>
      intro s hs
      rcases collapseSpaces_step s with h0 | ⟨u, v, rfl⟩
      · rw [h0]
      · rw [collapseSpaces_insert u v, jobSpec_insert_sep u v]
        exact ih (u ++ ' ' :: v) (by simp at hs ⊢; omega)
  exact fun s => H s.length s (le_refl _)

/-- C5: Separator characters act purely as word delimiters: any two
inputs that differ only in the sizes (one or more) of their runs of
consecutive spaces — that is, whose space-run normal forms coincide —
parse to equal `Job`s; in particular `"cmd1  aaa   bbb"` and
`"cmd1 aaa bbb"` parse to the identical `Command`. -/
theorem parseJob_sep_runs_collapse (s t : List Char)
    (h : collapseSpaces s = collapseSpaces t) :
    (ParseJob ⟨s, 0⟩).1 = (ParseJob ⟨t, 0⟩).1 := by
  rw [parseJob_job_eq, parseJob_job_eq, ← jobSpec_collapseSpaces s,
    ← jobSpec_collapseSpaces t, h]

theorem parseJob_sep_runs_collapse_witness :
    collapseSpaces "cmd1  aaa   bbb".data = collapseSpaces "cmd1 aaa bbb".data ∧
      (ParseJob ⟨"cmd1  aaa   bbb".data, 0⟩).1 = (ParseJob ⟨"cmd1 aaa bbb".data, 0⟩).1 :=
  ⟨by decide,
    parseJob_sep_runs_collapse "cmd1  aaa   bbb".data "cmd1 aaa bbb".data (by decide)⟩

/-- C6: The cursor satisfies its contract: `CurrentChar` returns the
source character at the current position, or `'\n'` at the end or on empty
text; `NextChar` increments the position by exactly one below the length
and leaves it unchanged otherwise, then returns the new `CurrentChar`; the
position stays in `[0, length]`, and `NextChar` at the end keeps returning
`'\n'`. -/
theorem cursor_contract (s : List Char) (i : Nat) :
    (∀ h : i < s.length, StringToBeParsed.CurrentChar ⟨s, i⟩ = s.get ⟨i, h⟩) ∧
    (i = s.length ∨ s = [] → StringToBeParsed.CurrentChar ⟨s, i⟩ = '\n') ∧
    (i < s.length → (StringToBeParsed.NextChar ⟨s, i⟩).2 = ⟨s, i + 1⟩) ∧
    (s.length ≤ i → (StringToBeParsed.NextChar ⟨s, i⟩).2 = ⟨s, i⟩) ∧
    ((StringToBeParsed.NextChar ⟨s, i⟩).1 =
      StringToBeParsed.CurrentChar (StringToBeParsed.NextChar ⟨s, i⟩).2) ∧
    (i ≤ s.length → (StringToBeParsed.NextChar ⟨s, i⟩).2.m_currentPos ≤ s.length) ∧
    (s.length ≤ i → (StringToBeParsed.NextChar ⟨s, i⟩).1 = '\n') := by
  refine ⟨?_, ?_, ?_, ?_, ?_, ?_, ?_⟩
  · intro h
    have hnil : s ≠ [] := by
      intro hn
      simp [hn] at h
    have hcond : ¬ (s = [] ∨ i = s.length) := by
      rintro (hn | he)
      · exact hnil hn
      · omega
    show (if s = [] ∨ i = s.length then '\n' else s.getD i '\n') = s.get ⟨i, h⟩
    rw [if_neg hcond, List.getD_eq_getElem _ _ h]
    simp
  · intro h
    show (if s = [] ∨ i = s.length then '\n' else s.getD i '\n') = '\n'
    rcases h with h | h
    · rw [if_pos (Or.inr h)]
    · rw [if_pos (Or.inl h)]
  · intro h
    exact nextChar_snd_of_lt h
  · intro h
    exact nextChar_snd_of_ge (by omega)
  · rfl
  · intro h
    by_cases hlt : i < s.length
    · rw [nextChar_snd_of_lt hlt]
      dsimp only
      omega
    · rw [nextChar_snd_of_ge hlt]
      dsimp only
      omega
  · intro h
    rw [show (StringToBeParsed.NextChar ⟨s, i⟩).1 =
        StringToBeParsed.CurrentChar (StringToBeParsed.NextChar ⟨s, i⟩).2 from rfl,
      nextChar_snd_of_ge (by omega)]
    exact currentChar_end s i h

theorem cursor_contract_witness :
    StringToBeParsed.CurrentChar ⟨"ab".data, 1⟩ = 'b' ∧
      (StringToBeParsed.NextChar ⟨"ab".data, 1⟩).2 = ⟨"ab".data, 2⟩ ∧
      (StringToBeParsed.NextChar ⟨"ab".data, 2⟩).1 = '\n' := by
  refine ⟨?_, ?_, ?_⟩
  · exact ((cursor_contract "ab".data 1).1 (by decide)).trans (by decide)
  · exact (cursor_contract "ab".data 1).2.2.1 (by decide)
  · exact (cursor_contract "ab".data 2).2.2.2.2.2.2 (by decide)

/-- C7: `ToToken` is a pure total function mapping `'|'` to `Pipe`, `'>'`
to `Redirect`, `' '` to `StrSeparator`, `'\n'` to `End`, and every other
character to `Str`. -/
theorem toToken_classification :
    ToToken '|' = Token.Pipe ∧ ToToken '>' = Token.Redirect ∧
      ToToken ' ' = Token.StrSeparator ∧ ToToken '\n' = Token.End ∧
      ∀ c : Char, c ≠ '|' → c ≠ '>' → c ≠ ' ' → c ≠ '\n' → ToToken c = Token.Str := by
  refine ⟨by decide, by decide, by decide, by decide, ?_⟩
  intro c h1 h2 h3 h4
  exact toToken_str_of_ne c h1 h2 h3 h4

theorem toToken_classification_witness : ToToken 'a' = Token.Str :=
  toToken_classification.2.2.2.2 'a' (by decide) (by decide) (by decide) (by decide)

/-- C8: `ParseStr` returns exactly the maximal run of consecutive `Str`
characters from the cursor position (possibly empty), advances the cursor
past exactly those characters, and leaves it on the first non-`Str`
character without consuming it. -/
theorem parseStr_maximal_run (s : List Char) (i : Nat) (h : i ≤ s.length) :
    (ParseStr ⟨s, i⟩).1 = (s.drop i).takeWhile isStrTok ∧
    (ParseStr ⟨s, i⟩).2 = ⟨s, i + ((s.drop i).takeWhile isStrTok).length⟩ ∧
    s.drop (ParseStr ⟨s, i⟩).2.m_currentPos = (s.drop i).dropWhile isStrTok ∧
    ToToken ((ParseStr ⟨s, i⟩).2.CurrentChar) ≠ Token.Str := by
  have hp := parseStr_spec s i h
  refine ⟨by rw [hp], by rw [hp], ?_, ?_⟩
  · rw [hp]
    dsimp only
    exact drop_add_length_takeWhile isStrTok s i
  · rw [hp]
    dsimp only
    rw [currentChar_eq_headChar s _ (add_length_takeWhile_le isStrTok s i h),
      drop_add_length_takeWhile isStrTok s i]
    cases ht : (s.drop i).dropWhile isStrTok with
    | nil =>
      simp [headChar]
      decide
    | cons c t =>
      have hc := dropWhile_head_false isStrTok _ ht
      simp only [headChar]
      simpa [isStrTok] using hc

theorem parseStr_maximal_run_witness :
    (ParseStr ⟨"ab c".data, 0⟩).1 = "ab".data ∧
      ToToken ((ParseStr ⟨"ab c".data, 0⟩).2.CurrentChar) ≠ Token.Str := by
  have h := parseStr_maximal_run "ab c".data 0 (by decide)
  exact ⟨h.1.trans (by decide), h.2.2.2⟩

/-- C9: Round trip: serializing a `Job` returned by `ParseJob` (args
joined by single spaces, commands joined by `|`, a non-empty redirect
appended after `>`) and parsing the result yields an equal `Job`. -/
theorem parseJob_roundtrip (s : List Char) :
    (ParseJob ⟨serializeJob (ParseJob ⟨s, 0⟩).1, 0⟩).1 = (ParseJob ⟨s, 0⟩).1 := by
  rw [parseJob_job_eq, parseJob_job_eq]
  have h1 := jobSpec_args_inv s
  have h2 := jobSpec_redirect_inv s
  obtain ⟨cmds, red, hJ⟩ : ∃ a b, jobSpec s = ⟨a, b⟩ :=
    ⟨(jobSpec s).commands, (jobSpec s).redirectFilename, rfl⟩
  rw [hJ] at h1 h2 ⊢
  exact jobSpec_serialize cmds red h1 h2

/-- C10: Characters after the first parsed redirect target word are
completely ignored: when `ParseJob` on `P ++ W` consumes the `>` and
parses the word `W` as the redirect target, appending any `R` that starts
with a non-`Str` character changes neither the commands nor the redirect
target. -/
theorem parseJob_trailing_ignored (P W R : List Char) (hWne : W ≠ [])
    (hred : (ParseJob ⟨P ++ W, 0⟩).1.redirectFilename = W)
    (hRne : R ≠ []) (hR : ToToken (headChar R) ≠ Token.Str) :
    (ParseJob ⟨P ++ W ++ R, 0⟩).1 = (ParseJob ⟨P ++ W, 0⟩).1 := by
  rw [parseJob_job_eq] at hred
  rw [parseJob_job_eq, parseJob_job_eq]
  simp only [jobSpec] at hred
  have hred0 : jobSpecRedirect (P ++ W) = W := hred
  cases hds : (P ++ W).dropWhile isBodyTok with
  | nil =>
    rw [jobSpecRedirect_nil _ hds] at hred
    exact absurd hred.symm hWne
  | cons d r =>
    rw [jobSpecRedirect_cons d r _ hds] at hred
    by_cases hd : ToToken d = Token.Redirect
    · rw [if_pos hd] at hred
      unfold jobSpec jobSpecCommands
      rw [takeWhile_append_stop isBodyTok (P ++ W) R hds,
        jobSpecRedirect_cons d (r ++ R) _ (dropWhile_append_stop isBodyTok (P ++ W) R hds),
        if_pos hd, hred0]
      congr 1
      cases hr1 : r.dropWhile isSepTok with
      | nil =>
        rw [hr1] at hred
        simp at hred
        exact absurd hred hWne
      | cons e r1 =>
        rw [hr1] at hred
        rw [dropWhile_append_stop isSepTok r R hr1]
        by_cases hestr : isStrTok e = true
        · rw [List.takeWhile_cons_of_pos hestr] at hred
          rw [List.takeWhile_cons_of_pos hestr]
          cases hr2 : r1.dropWhile isStrTok with
          | nil =>
            have hall : ∀ c ∈ r1, isStrTok c = true := by
              intro c hcm
              exact List.dropWhile_eq_nil_iff.mp hr2 c hcm
            rw [takeWhile_append_all _ _ _ hall]
            rw [List.takeWhile_eq_self_iff.mpr hall] at hred
            obtain ⟨c0, R', rfl⟩ : ∃ a l, R = a :: l := by
              cases R with
              | nil => exact absurd rfl hRne
              | cons a l => exact ⟨a, l, rfl⟩
            simp only [headChar] at hR
            rw [List.takeWhile_cons_of_neg (by simp [isStrTok, hR]), List.append_nil]
            exact hred
          | cons f r2 =>
            rw [takeWhile_append_stop isStrTok r1 R hr2]
            exact hred
        · rw [List.takeWhile_cons_of_neg hestr] at hred
          exact absurd hred.symm hWne
    · rw [if_neg hd] at hred
      exact absurd hred.symm hWne

theorem parseJob_trailing_ignored_witness :
    "w".data ≠ [] ∧
      (ParseJob ⟨"a>".data ++ "w".data, 0⟩).1.redirectFilename = "w".data ∧
      "|x".data ≠ [] ∧ ToToken (headChar "|x".data) ≠ Token.Str ∧
      (ParseJob ⟨"a>".data ++ "w".data ++ "|x".data, 0⟩).1 =
        (ParseJob ⟨"a>".data ++ "w".data, 0⟩).1 :=
  ⟨by decide, by decide, by decide, by decide,
    parseJob_trailing_ignored "a>".data "w".data "|x".data (by decide) (by decide)
      (by decide) (by decide)⟩

end JobGrammar
